import Mathlib

/-!
Shallow embedding of `flower/views/dashboard.py`: the snapshot builder
(`DashboardView.get` lines 38–46 and `_as_dict`/`_info`), the offline-worker
purge (`DashboardView.get` lines 48–61), and the websocket broadcast handler
(`DashboardUpdateHandler`: `open`, `on_close`, `on_update_time`,
`dashboard_update`).

Python dictionaries are modelled as association lists with first-match lookup
and replace-in-place-or-append assignment (insertion order preserved, as in
Python).  Fallible Python operations (plain-`dict` indexing, `list.remove`,
`max` on an empty or non-list argument) are modelled in `Except String`;
guarded call sites mirror the source's guards.  Integer timestamps stand for
the wall-clock seconds the source obtains via `int(time.time())`.
-/

/-- A Python value as it appears in the dashboard's worker-info dictionaries:
`None`, a bool, an int, a string, or a list of numbers (heartbeats, loadavg).
Numeric timestamps/loads are modelled as integers. -/
inductive PyVal where
  | pyNone
  | pyBool (b : Bool)
  | pyInt (n : Int)
  | pyStr (s : String)
  | pyIntList (xs : List Int)
  deriving DecidableEq, Repr

/-- Python truthiness (`if v:`) for the modelled values. -/
def pyTruthy : PyVal → Bool
  | .pyNone => false
  | .pyBool b => b
  | .pyInt n => n ≠ 0
  | .pyStr s => s ≠ ""
  | .pyIntList xs => !xs.isEmpty

/-- First-match association-list lookup: `d.get(k)` / `d[k]` hit. -/
def lookupAssoc {α : Type} : List (String × α) → String → Option α
  | [], _ => none
  | (k', v) :: rest, k => if k' = k then some v else lookupAssoc rest k

/-- `k in d` for a Python dict modelled as an association list. -/
def containsKey {α : Type} (d : List (String × α)) (k : String) : Bool :=
  (lookupAssoc d k).isSome

/-- Python dict assignment `d[k] = v`: replace the (unique) existing binding
in place, else append at the end (insertion order). -/
def updateAssoc {α : Type} : List (String × α) → String → α → List (String × α)
  | [], k, v => [(k, v)]
  | (k', v') :: rest, k, v =>
      if k' = k then (k, v) :: rest else (k', v') :: updateAssoc rest k v

/-- Python `d.pop(k)` key removal (first binding with key `k`). -/
def eraseKey {α : Type} : List (String × α) → String → List (String × α)
  | [], _ => []
  | (k', v') :: rest, k => if k' = k then rest else (k', v') :: eraseKey rest k

/-- Python `d[k]` for a plain dict: raises `KeyError` when absent. -/
def dictIndex {α : Type} (d : List (String × α)) (k : String) : Except String α :=
  match lookupAssoc d k with
  | some v => .ok v
  | none => .error "KeyError"

/-- Python `d.pop(k)` without a default: raises `KeyError` when absent. -/
def dictPop {α : Type} (d : List (String × α)) (k : String) :
    Except String (List (String × α)) :=
  if containsKey d k then .ok (eraseKey d k) else .error "KeyError"

/-- A worker-info dictionary (string keys, Python values). -/
abbrev Dict := List (String × PyVal)

/-- Python `d.update(e)`: assign every binding of `e` into `d`, in order. -/
def dictUpdate (d e : Dict) : Dict :=
  e.foldl (fun acc kv => updateAssoc acc kv.1 kv.2) d

/-- Python `list.remove(x)`: drops the first occurrence, raises `ValueError`
when `x` is absent. -/
def pyListRemove {α : Type} [BEq α] (xs : List α) (a : α) :
    Except String (List α) :=
  if xs.contains a then .ok (xs.erase a) else .error "ValueError"

/-- Python `max` over a list of ints: raises `ValueError` on the empty list. -/
def pyMax (xs : List Int) : Except String Int :=
  match xs with
  | [] => .error "ValueError"
  | x :: rest => .ok (rest.foldl max x)

/-- The elements of a Python list value; `max` over a non-list raises. -/
def pyIntElems : PyVal → Except String (List Int)
  | .pyIntList xs => .ok xs
  | _ => .error "TypeError"

/-- One worker's event counter: event-type → count.  `counter.get(k, 0)`
is total with default 0. -/
abbrev Counter := List (String × Nat)

/-- `counter.get(key, 0)`. -/
def counterGet (c : Counter) (k : String) : Nat :=
  (lookupAssoc c k).getD 0

/-- The event-state counter table: worker name → counter. -/
abbrev CounterTable := List (String × Counter)

/-- Modelled from the spec: `state.counter` is maintained by the external
event-stream consumer (`flower/events.py`, not part of the sources here) as a
per-worker table of event counts — §2 "CounterTable … mapping worker name →
mapping event-type → count".  Upstream it is a `defaultdict(Counter)`, so
indexing an unknown worker name yields an empty counter rather than raising. -/
def counterDefault (ct : CounterTable) (name : String) : Counter :=
  (lookupAssoc ct name).getD []

/-- A worker record from the external worker registry.  The spec's two
observed shapes are covered by `hasFields`: when true the record is the
structured (namedtuple-like) variant exposing the fixed field set
`worker_fields` via `_fields`/`__getattribute__`; when false it is the loose
attribute bag probed with `getattr(worker, key, None)`.  An `Option` field
set to `none` stands for "attribute absent or `None`". -/
structure WorkerRecord where
  alive : Bool
  hasFields : Bool
  hostname : Option String := none
  pid : Option Int := none
  freq : Option Int := none
  heartbeats : Option (List Int) := none
  clock : Option Int := none
  active : Option Int := none
  processed : Option Int := none
  loadavg : Option (List Int) := none
  sw_ident : Option String := none
  sw_ver : Option String := none
  sw_sys : Option String := none
  deriving DecidableEq, Repr

/-- The fixed attribute list of `DashboardView._info` (same list the spec
gives for the structured record's `_fields`). -/
def worker_fields : List String :=
  ["hostname", "pid", "freq", "heartbeats", "clock", "active",
   "processed", "loadavg", "sw_ident", "sw_ver", "sw_sys"]

/-- The Python value of attribute `k` on a worker record (`None` when the
attribute is absent or unknown). -/
def attrVal (w : WorkerRecord) (k : String) : PyVal :=
  match k with
  | "hostname" => match w.hostname with | some s => .pyStr s | none => .pyNone
  | "pid" => match w.pid with | some n => .pyInt n | none => .pyNone
  | "freq" => match w.freq with | some n => .pyInt n | none => .pyNone
  | "heartbeats" => match w.heartbeats with | some xs => .pyIntList xs | none => .pyNone
  | "clock" => match w.clock with | some n => .pyInt n | none => .pyNone
  | "active" => match w.active with | some n => .pyInt n | none => .pyNone
  | "processed" => match w.processed with | some n => .pyInt n | none => .pyNone
  | "loadavg" => match w.loadavg with | some xs => .pyIntList xs | none => .pyNone
  | "sw_ident" => match w.sw_ident with | some s => .pyStr s | none => .pyNone
  | "sw_ver" => match w.sw_ver with | some s => .pyStr s | none => .pyNone
  | "sw_sys" => match w.sw_sys with | some s => .pyStr s | none => .pyNone
  | _ => .pyNone

/-- Whether `getattr(worker, k, None)` is not `None`. -/
def attrPresent (w : WorkerRecord) (k : String) : Bool :=
  attrVal w k ≠ .pyNone

/-- `DashboardView._info`: yield `(key, value)` for each key of the fixed
field list whose value is present and not `None`. -/
def worker_info (w : WorkerRecord) : Dict :=
  (worker_fields.filter (fun k => attrPresent w k)).map (fun k => (k, attrVal w k))

/-- `DashboardView._as_dict`: the structured variant copies every `_fields`
entry (including `None` values); otherwise fall back to `_info`. -/
def as_dict (w : WorkerRecord) : Dict :=
  if w.hasFields then worker_fields.map (fun k => (k, attrVal w k))
  else worker_info w

/-- The external worker registry `state.workers`: name → record. -/
abbrev WorkerRegistry := List (String × WorkerRecord)

/-- The info dict assembled for one worker in `DashboardView.get`:
`info = dict(values)`, then `info.update(self._as_dict(worker))`, then
`info.update(status=worker.alive)`. -/
def workerInfoDict (worker : WorkerRecord) (values : Counter) : Dict :=
  let info : Dict := values.map (fun kv => (kv.1, PyVal.pyInt (kv.2 : Int)))
  let info := dictUpdate info (as_dict worker)
  updateAssoc info "status" (.pyBool worker.alive)

/-- One iteration of the worker loop in `DashboardView.get`: skip names
absent from the worker registry (`if name not in events.workers: continue`),
otherwise index the registry (plain-dict indexing, fallible, guarded) and
assign the assembled info dict under the worker's name. -/
def dashboardGetStep (wr : WorkerRegistry) (acc : List (String × Dict))
    (nv : String × Counter) : Except String (List (String × Dict)) :=
  if containsKey wr nv.1 then do
    let worker ← dictIndex wr nv.1
    pure (updateAssoc acc nv.1 (workerInfoDict worker nv.2))
  else pure acc

/-- The worker-dict construction of `DashboardView.get` (lines 38–46):
fold the loop body over the counter table's items. -/
def dashboardGetWorkers (ct : CounterTable) (wr : WorkerRegistry) :
    Except String (List (String × Dict)) :=
  ct.foldlM (dashboardGetStep wr) []

/-! ## Offline purge (`DashboardView.get`, lines 48–61) -/

/-- Code-point order on character lists (Python string comparison). -/
def lexLe : List Char → List Char → Bool
  | [], _ => true
  | _ :: _, [] => false
  | a :: as, b :: bs =>
      if a.toNat < b.toNat then true
      else if b.toNat < a.toNat then false
      else lexLe as bs

/-- Python `<=` on strings (code-point lexicographic). -/
def strLe (a b : String) : Bool := lexLe a.data b.data

/-- `max(xs)` for a nonempty list (total helper used in specifications of the
purge decision; the fallible `pyMax` is the source-faithful operation). -/
def listMax : List Int → Int
  | [] => 0
  | x :: rest => rest.foldl max x

/-- The removal decision of the purge loop for one worker-info dict:
skip workers whose `status` is truthy; otherwise purge when
`not last_heartbeat or timestamp - last_heartbeat > threshold`, where
`last_heartbeat = int(max(heartbeats)) if heartbeats else None`. -/
def purgeDecision (threshold timestamp : Int) (info : Dict) :
    Except String Bool :=
  if pyTruthy ((lookupAssoc info "status").getD (.pyBool true)) then .ok false
  else
    let hb := (lookupAssoc info "heartbeats").getD (.pyIntList [])
    if pyTruthy hb then do
      let xs ← pyIntElems hb
      let lh ← pyMax xs
      .ok (decide (lh = 0) || decide (timestamp - lh > threshold))
    else .ok true

/-- One iteration of the purge loop: append the name to `offline_workers`
when the decision says offline. -/
def offlineCollectStep (threshold timestamp : Int) (acc : List String)
    (ni : String × Dict) : Except String (List String) := do
  let d ← purgeDecision threshold timestamp ni.2
  pure (if d then acc ++ [ni.1] else acc)

/-- The `purge_offline_workers` block: when the option is set, collect the
names of offline workers, then `pop` each collected name from the snapshot. -/
def purge_offline_workers (threshold : Option Int) (timestamp : Int)
    (ws : List (String × Dict)) : Except String (List (String × Dict)) :=
  match threshold with
  | none => .ok ws
  | some t => do
      let offline ← ws.foldlM (offlineCollectStep t timestamp) ([] : List String)
      offline.foldlM (fun acc n => dictPop acc n) ws

/-- The `status` value of a snapshot entry, when it is a bool. -/
def infoAlive (info : Dict) : Option Bool :=
  match lookupAssoc info "status" with
  | some (.pyBool b) => some b
  | _ => none

/-- The heartbeat history of a snapshot entry: a missing or `None`
`heartbeats` value reads as the empty history; a non-list value is
ill-formed. -/
def infoHeartbeats (info : Dict) : Option (List Int) :=
  match lookupAssoc info "heartbeats" with
  | some (.pyIntList xs) => some xs
  | some .pyNone => some []
  | none => some []
  | _ => none

/-- What the purge actually removes, per entry: the worker is dead, and its
heartbeat history is empty, or tops out at exactly 0, or its most recent
heartbeat is older than `timestamp − threshold`. -/
def offlineRemovedSpec (threshold timestamp : Int) (alive : Bool)
    (hbs : List Int) : Bool :=
  !alive && (hbs.isEmpty || decide (listMax hbs = 0)
    || decide (timestamp - listMax hbs > threshold))

/-! ## Narrow (broadcast) snapshot: `DashboardUpdateHandler.dashboard_update` -/

/-- One entry of the narrow broadcast snapshot (the dict literal built at
lines 144–153; fixed keys, so modelled as a structure). -/
structure NarrowEntry where
  name : String
  status : Bool
  active : PyVal
  processed : Nat
  failed : Nat
  succeeded : Nat
  retried : Nat
  loadavg : PyVal
  deriving DecidableEq, Repr

/-- The per-worker body of `dashboard_update`'s loop. -/
def narrowEntryFor (ct : CounterTable) (name : String) (worker : WorkerRecord) :
    NarrowEntry :=
  let counter := counterDefault ct name
  let started := counterGet counter "task-started"
  let processed := counterGet counter "task-received"
  let failed := counterGet counter "task-failed"
  let succeeded := counterGet counter "task-succeeded"
  let retried := counterGet counter "task-retried"
  let active : Int := (started : Int) - succeeded - failed - retried
  { name := name
    status := worker.alive
    active := if active < 0 then .pyStr "N/A" else .pyInt active
    processed := processed
    failed := failed
    succeeded := succeeded
    retried := retried
    loadavg := match worker.loadavg with
               | some xs => .pyIntList xs
               | none => .pyNone }

/-- Insert one pair into a name-sorted list (stable). -/
def insertByName {α : Type} (p : String × α) :
    List (String × α) → List (String × α)
  | [] => [p]
  | q :: rest =>
      if strLe q.1 p.1 then q :: insertByName p rest else p :: q :: rest

/-- `sorted(state.workers.items())`: the registry's pairs in ascending name
order (dict keys are unique, so the name determines the order). -/
def sortByName {α : Type} : List (String × α) → List (String × α)
  | [] => []
  | p :: rest => insertByName p (sortByName rest)

/-- `DashboardUpdateHandler.dashboard_update`: the narrow snapshot, an
ordered mapping keyed by worker name, iterated in sorted-name order. -/
def dashboard_update (ct : CounterTable) (wr : WorkerRegistry) :
    List (String × NarrowEntry) :=
  (sortByName wr).foldl
    (fun acc nw => updateAssoc acc nw.1 (narrowEntryFor ct nw.1 nw.2)) []

/-! ## Broadcast fan-out and listener lifecycle (`DashboardUpdateHandler`) -/

/-- A push-connection handle. -/
abbrev Listener := Nat

/-- The class-level mutable state of `DashboardUpdateHandler`: the listener
list, whether the `PeriodicCallback` object exists, whether it is running,
and the trace of messages written outside ticks (the empty dict sent to
non-auto-refresh connections). -/
structure SchedState where
  listeners : List Listener
  pcCreated : Bool
  pcRunning : Bool
  sent : List (Listener × Dict)
  deriving DecidableEq, Repr

/-- The state at process start: no listeners, no timer object. -/
def initState : SchedState := ⟨[], false, false, []⟩

/-- `DashboardUpdateHandler.open`: without auto-refresh, write the empty dict and
return; otherwise, when the listener list is empty, create the
`PeriodicCallback` if needed and start it if not running, then append the
new listener. -/
def openConn (autoRefresh : Bool) (l : Listener) (s : SchedState) :
    SchedState :=
  match autoRefresh with
  | false => { s with sent := s.sent ++ [(l, ([] : Dict))] }
  | true =>
    let s1 :=
      if s.listeners.isEmpty then
        let sA := if s.pcCreated = false then { s with pcCreated := true } else s
        if sA.pcRunning = false then { sA with pcRunning := true } else sA
      else s
    { s1 with listeners := s1.listeners ++ [l] }

/-- `DashboardUpdateHandler.on_close`: remove this listener if present
(`list.remove` behind the membership guard), then stop the timer when the
list is empty and the callback object exists. -/
def closeConn (l : Listener) (s : SchedState) : Except String SchedState := do
  let s1 ←
    if s.listeners.contains l then
      (pyListRemove s.listeners l).map (fun ls => { s with listeners := ls })
    else .ok s
  .ok (if s1.listeners.isEmpty && s1.pcCreated then { s1 with pcRunning := false }
       else s1)

/-- The (always-reached) result state of `on_close`. -/
def closeStep (l : Listener) (s : SchedState) : SchedState :=
  let s1 := if s.listeners.contains l then { s with listeners := s.listeners.erase l }
            else s
  if s1.listeners.isEmpty && s1.pcCreated then { s1 with pcRunning := false } else s1

/-- The send loop of `on_update_time`: `for l in cls.listeners:
l.write_message(update)`.  A raising `write_message` propagates, so the loop
stops at the first failing listener; the result lists the deliveries that
happened. -/
def pushAll (fails : Listener → Bool) (update : List (String × NarrowEntry)) :
    List Listener → List (Listener × List (String × NarrowEntry))
  | [] => []
  | l :: ls => if fails l then [] else (l, update) :: pushAll fails update ls

/-- `DashboardUpdateHandler.on_update_time`: compute the narrow snapshot
once; when it is non-empty (`if update:`), send it to the listeners in
order.  Returns the deliveries of the tick. -/
def on_update_time (fails : Listener → Bool) (ct : CounterTable)
    (wr : WorkerRegistry) (listeners : List Listener) :
    List (Listener × List (String × NarrowEntry)) :=
  let update := dashboard_update ct wr
  if update.isEmpty then [] else pushAll fails update listeners

/-! ## Association-list lemmas -/

theorem lookupAssoc_updateAssoc_self {α : Type} (d : List (String × α))
    (k : String) (v : α) : lookupAssoc (updateAssoc d k v) k = some v := by
  induction d with
  | nil => simp [updateAssoc, lookupAssoc]
  | cons p rest ih =>
      obtain ⟨a, b⟩ := p
      by_cases h : a = k
      · simp [updateAssoc, h, lookupAssoc]
      · simp [updateAssoc, h, lookupAssoc, ih]

theorem lookupAssoc_updateAssoc_ne {α : Type} (d : List (String × α))
    (k k' : String) (v : α) (h : k' ≠ k) :
    lookupAssoc (updateAssoc d k v) k' = lookupAssoc d k' := by
  have hk : ¬(k = k') := fun e => h e.symm
  induction d with
  | nil => simp [updateAssoc, lookupAssoc, hk]
  | cons p rest ih =>
      obtain ⟨a, b⟩ := p
      by_cases hp : a = k
      · subst hp
        simp [updateAssoc, lookupAssoc, hk]
      · simp [updateAssoc, hp, lookupAssoc, ih]

theorem mem_updateAssoc {α : Type} {d : List (String × α)} {k : String}
    {v : α} {p : String × α} (h : p ∈ updateAssoc d k v) :
    p ∈ d ∨ p = (k, v) := by
  induction d with
  | nil =>
      simp only [updateAssoc, List.mem_singleton] at h
      exact Or.inr h
  | cons q rest ih =>
      obtain ⟨a, b⟩ := q
      by_cases hq : a = k
      · simp only [updateAssoc, if_pos hq] at h
        rcases List.mem_cons.mp h with h | h
        · exact Or.inr h
        · exact Or.inl (List.mem_cons_of_mem _ h)
      · simp only [updateAssoc, if_neg hq] at h
        rcases List.mem_cons.mp h with h | h
        · exact Or.inl (h ▸ List.mem_cons_self _ _)
        · rcases ih h with h' | h'
          · exact Or.inl (List.mem_cons_of_mem _ h')
          · exact Or.inr h'

theorem containsKey_updateAssoc {α : Type} (d : List (String × α))
    (k k' : String) (v : α) :
    containsKey (updateAssoc d k v) k' = true ↔
      (containsKey d k' = true ∨ k = k') := by
  by_cases h : k' = k
  · subst h
    simp [containsKey, lookupAssoc_updateAssoc_self]
  · have h2 : ¬(k = k') := fun e => h e.symm
    simp [containsKey, lookupAssoc_updateAssoc_ne d k k' v h, h2]

theorem lookupAssoc_mem {α : Type} {d : List (String × α)} {k : String}
    {v : α} (h : lookupAssoc d k = some v) : (k, v) ∈ d := by
  induction d with
  | nil => simp [lookupAssoc] at h
  | cons p rest ih =>
      obtain ⟨a, b⟩ := p
      by_cases hp : a = k
      · simp only [lookupAssoc, if_pos hp] at h
        injection h with h
        subst h
        subst hp
        exact List.mem_cons_self _ _
      · simp only [lookupAssoc, if_neg hp] at h
        exact List.mem_cons_of_mem _ (ih h)

theorem containsKey_exists {α : Type} {d : List (String × α)} {k : String}
    (h : containsKey d k = true) : ∃ v, (k, v) ∈ d := by
  unfold containsKey at h
  cases hl : lookupAssoc d k with
  | none => rw [hl] at h; simp at h
  | some v => exact ⟨v, lookupAssoc_mem hl⟩

theorem containsKey_cons {α : Type} (a : String) (b : α)
    (t : List (String × α)) (k : String) :
    containsKey ((a, b) :: t) k = (a == k || containsKey t k) := by
  by_cases h : a = k <;> simp [containsKey, lookupAssoc, h]

theorem mem_keys_of_mem {α : Type} {d : List (String × α)} {p : String × α}
    (h : p ∈ d) : p.1 ∈ d.map Prod.fst :=
  List.mem_map_of_mem Prod.fst h

theorem containsKey_of_mem {α : Type} {d : List (String × α)}
    {p : String × α} (h : p ∈ d) : containsKey d p.1 = true := by
  induction d with
  | nil => cases h
  | cons q rest ih =>
      obtain ⟨a, b⟩ := q
      rcases List.mem_cons.mp h with h | h
      · subst h
        simp [containsKey_cons]
      · simp [containsKey_cons, ih h]

theorem key_inj {α : Type} {d : List (String × α)}
    (hnod : (d.map Prod.fst).Nodup) {p q : String × α}
    (hp : p ∈ d) (hq : q ∈ d) (h : p.1 = q.1) : p = q := by
  induction d with
  | nil => cases hp
  | cons r rest ih =>
      have hr : r.1 ∉ rest.map Prod.fst := by
        have := hnod
        simp only [List.map_cons, List.nodup_cons] at this
        exact this.1
      rcases List.mem_cons.mp hp with hp' | hp' <;>
        rcases List.mem_cons.mp hq with hq' | hq'
      · exact hp'.trans hq'.symm
      · exact absurd (h ▸ mem_keys_of_mem hq') (hp' ▸ hr)
      · exact absurd (h ▸ mem_keys_of_mem hp') (by rw [hq']; exact hr)
      · exact ih (by simpa using (List.nodup_cons.mp (by simpa using hnod)).2)
          hp' hq'

theorem lookupAssoc_cons {α : Type} (a : String) (b : α)
    (t : List (String × α)) (k : String) :
    lookupAssoc ((a, b) :: t) k = if a = k then some b else lookupAssoc t k :=
  rfl

theorem lookupAssoc_eraseKey_ne {α : Type} (d : List (String × α))
    (k k' : String) (h : k' ≠ k) :
    lookupAssoc (eraseKey d k) k' = lookupAssoc d k' := by
  have hk : ¬(k = k') := fun e => h e.symm
  induction d with
  | nil => simp [eraseKey]
  | cons p rest ih =>
      obtain ⟨a, b⟩ := p
      by_cases ha : a = k
      · subst ha
        simp [eraseKey, lookupAssoc_cons, hk]
      · simp [eraseKey, ha, lookupAssoc_cons, ih]

theorem eraseKey_eq_filter {α : Type} (d : List (String × α)) (k : String)
    (hnod : (d.map Prod.fst).Nodup) :
    eraseKey d k = d.filter (fun p => !(p.1 == k)) := by
  induction d with
  | nil => simp [eraseKey]
  | cons p rest ih =>
      obtain ⟨a, b⟩ := p
      simp only [List.map_cons, List.nodup_cons] at hnod
      by_cases ha : a = k
      · subst ha
        have hall : ∀ q ∈ rest, (!(q.1 == a)) = true := by
          intro q hq
          have hne : q.1 ≠ a := fun hc => hnod.1 (hc ▸ mem_keys_of_mem hq)
          simp [hne]
        have hfr : List.filter (fun p => !(p.1 == a)) rest = rest :=
          List.filter_eq_self.mpr hall
        simp [eraseKey, List.filter_cons, hfr]
      · simp [eraseKey, ha, List.filter_cons, ih hnod.2]

theorem containsKey_filter_key {α : Type} (d : List (String × α))
    (f : String → Bool) (k : String) :
    containsKey (d.filter (fun p => f p.1)) k = (f k && containsKey d k) := by
  induction d with
  | nil => simp [containsKey, lookupAssoc]
  | cons p rest ih =>
      obtain ⟨a, b⟩ := p
      by_cases ha : a = k
      · subst ha
        cases hf : f a with
        | true => simp [List.filter_cons, hf, containsKey_cons, ih]
        | false => simp [List.filter_cons, hf, containsKey_cons, ih]
      · have hne : (a == k) = false := beq_eq_false_iff_ne.mpr ha
        cases hf : f a with
        | true => simp [List.filter_cons, hf, containsKey_cons, ih, hne]
        | false => simp [List.filter_cons, hf, containsKey_cons, ih, hne]

theorem keys_filter_sublist {α : Type} (d : List (String × α))
    (q : String × α → Bool) :
    ((d.filter q).map Prod.fst).Sublist (d.map Prod.fst) :=
  (List.filter_sublist d).map Prod.fst

theorem lookupAssoc_dictUpdate_of_not_contains (d e : Dict) (k : String)
    (h : containsKey e k = false) :
    lookupAssoc (dictUpdate d e) k = lookupAssoc d k := by
  induction e generalizing d with
  | nil => simp [dictUpdate]
  | cons p rest ih =>
      obtain ⟨a, b⟩ := p
      rw [containsKey_cons] at h
      simp only [Bool.or_eq_false_iff, beq_eq_false_iff_ne] at h
      show lookupAssoc (dictUpdate (updateAssoc d a b) rest) k = lookupAssoc d k
      rw [ih (updateAssoc d a b) (by simpa using h.2)]
      exact lookupAssoc_updateAssoc_ne d a k b (fun e => h.1 e.symm)

theorem lookupAssoc_dictUpdate_of_contains (d e : Dict) (k : String)
    (hnod : (e.map Prod.fst).Nodup) (h : containsKey e k = true) :
    lookupAssoc (dictUpdate d e) k = lookupAssoc e k := by
  induction e generalizing d with
  | nil => simp [containsKey, lookupAssoc] at h
  | cons p rest ih =>
      obtain ⟨a, b⟩ := p
      simp only [List.map_cons, List.nodup_cons] at hnod
      show lookupAssoc (dictUpdate (updateAssoc d a b) rest) k =
        lookupAssoc ((a, b) :: rest) k
      by_cases ha : a = k
      · subst ha
        have hrest : containsKey rest a = false := by
          cases hc : containsKey rest a with
          | false => rfl
          | true =>
              obtain ⟨v, hv⟩ := containsKey_exists hc
              exact absurd (mem_keys_of_mem hv) hnod.1
        rw [lookupAssoc_dictUpdate_of_not_contains _ _ _ hrest,
          lookupAssoc_updateAssoc_self]
        simp [lookupAssoc]
      · rw [containsKey_cons] at h
        simp only [Bool.or_eq_true, beq_iff_eq, ha, false_or] at h
        rw [ih _ hnod.2 h]
        simp [lookupAssoc_cons, ha]

/-! ## Sorting, fold, and monad plumbing lemmas -/

theorem insertByName_perm {α : Type} (p : String × α)
    (l : List (String × α)) : (insertByName p l).Perm (p :: l) := by
  induction l with
  | nil => exact List.Perm.refl _
  | cons q rest ih =>
      by_cases h : strLe q.1 p.1
      · simpa [insertByName, h] using
          ((ih.cons q).trans (List.Perm.swap p q rest))
      · simp [insertByName, h]

theorem sortByName_perm {α : Type} (l : List (String × α)) :
    (sortByName l).Perm l := by
  induction l with
  | nil => exact List.Perm.refl _
  | cons p rest ih =>
      exact (insertByName_perm p (sortByName rest)).trans (ih.cons p)

theorem mem_foldl_updateAssoc {β γ : Type} (g : String × β → γ)
    (P : String × γ → Prop) :
    ∀ (ps : List (String × β)) (acc : List (String × γ)),
      (∀ p ∈ acc, P p) → (∀ q ∈ ps, P (q.1, g q)) →
      ∀ p ∈ ps.foldl (fun acc q => updateAssoc acc q.1 (g q)) acc, P p := by
  intro ps
  induction ps with
  | nil => intro acc hacc _ p hp; exact hacc p hp
  | cons q rest ih =>
      intro acc hacc hps p hp
      refine ih (updateAssoc acc q.1 (g q)) ?_ ?_ p hp
      · intro r hr
        rcases mem_updateAssoc hr with h | h
        · exact hacc r h
        · subst h
          exact hps q (List.mem_cons_self _ _)
      · intro r hr
        exact hps r (List.mem_cons_of_mem _ hr)

theorem containsKey_foldl_updateAssoc {β γ : Type} (g : String × β → γ) :
    ∀ (ps : List (String × β)) (acc : List (String × γ)) (n : String),
      (containsKey acc n = true ∨ n ∈ ps.map Prod.fst) →
      containsKey (ps.foldl (fun acc q => updateAssoc acc q.1 (g q)) acc) n
        = true := by
  intro ps
  induction ps with
  | nil =>
      intro acc n h
      rcases h with h | h
      · exact h
      · simp at h
  | cons q rest ih =>
      intro acc n h
      refine ih (updateAssoc acc q.1 (g q)) n ?_
      rcases h with h | h
      · exact Or.inl ((containsKey_updateAssoc acc q.1 n (g q)).mpr (Or.inl h))
      · rw [List.map_cons] at h
        rcases List.mem_cons.mp h with h' | h'
        · exact Or.inl ((containsKey_updateAssoc acc q.1 n (g q)).mpr
            (Or.inr h'.symm))
        · exact Or.inr h'

theorem ok_bind {ε α β : Type} (a : α) (f : α → Except ε β) :
    (Except.ok a >>= f) = f a := rfl

/-! ## pushAll lemmas -/

theorem pushAll_no_fail (fails : Listener → Bool)
    (update : List (String × NarrowEntry)) (ls : List Listener)
    (h : ∀ l ∈ ls, fails l = false) :
    pushAll fails update ls = ls.map (fun l => (l, update)) := by
  induction ls with
  | nil => rfl
  | cons l rest ih =>
      simp [pushAll, h l (List.mem_cons_self _ _),
        ih (fun x hx => h x (List.mem_cons_of_mem _ hx))]

theorem mem_pushAll {fails : Listener → Bool}
    {update : List (String × NarrowEntry)} {ls : List Listener}
    {l : Listener} {p : List (String × NarrowEntry)}
    (h : (l, p) ∈ pushAll fails update ls) : l ∈ ls ∧ p = update := by
  induction ls with
  | nil => cases h
  | cons x rest ih =>
      by_cases hx : fails x
      · simp [pushAll, hx] at h
      · simp only [pushAll, hx, if_false, Bool.false_eq_true] at h
        rcases List.mem_cons.mp h with h' | h'
        · injection h' with h1 h2
          exact ⟨h1 ▸ List.mem_cons_self _ _, h2⟩
        · obtain ⟨hm, he⟩ := ih h'
          exact ⟨List.mem_cons_of_mem _ hm, he⟩

theorem pushAll_upto_fail (fails : Listener → Bool)
    (update : List (String × NarrowEntry)) (pre post : List Listener)
    (f : Listener) (hpre : ∀ l ∈ pre, fails l = false)
    (hf : fails f = true) :
    pushAll fails update (pre ++ f :: post) =
      pre.map (fun l => (l, update)) := by
  induction pre with
  | nil => simp [pushAll, hf]
  | cons l rest ih =>
      simp [pushAll, hpre l (List.mem_cons_self _ _),
        ih (fun x hx => hpre x (List.mem_cons_of_mem _ hx))]


/-! ## Scheduler lifecycle lemmas -/

theorem openConn_true_listeners (l : Listener) (s : SchedState) :
    (openConn true l s).listeners = s.listeners ++ [l] := by
  simp only [openConn]
  by_cases h1 : s.listeners.isEmpty <;>
    by_cases h2 : s.pcCreated = false <;>
      by_cases h3 : s.pcRunning = false <;>
        simp [h1, h2, h3]

theorem openConn_true_pcCreated (l : Listener) (s : SchedState)
    (h : s.pcCreated = true ∨ s.listeners.isEmpty = true) :
    (openConn true l s).pcCreated = true := by
  simp only [openConn]
  rcases h with h | h
  · by_cases h1 : s.listeners.isEmpty <;>
      by_cases h3 : s.pcRunning = false <;>
        simp [h1, h3, h]
  · by_cases h2 : s.pcCreated = false <;>
      by_cases h3 : s.pcRunning = false <;>
        simp_all

theorem closeConn_ok (l : Listener) (s : SchedState) :
    closeConn l s = .ok (closeStep l s) := by
  unfold closeConn closeStep pyListRemove
  by_cases h : l ∈ s.listeners <;>
    simp [h, Except.map, Bind.bind, Except.bind]

theorem closeStep_listeners (l : Listener) (s : SchedState) :
    (closeStep l s).listeners =
      if s.listeners.contains l then s.listeners.erase l else s.listeners := by
  simp only [closeStep]
  by_cases h : s.listeners.contains l <;> simp [h] <;> split_ifs <;> rfl

theorem closeStep_pcCreated (l : Listener) (s : SchedState) :
    (closeStep l s).pcCreated = s.pcCreated := by
  simp only [closeStep]
  by_cases h : s.listeners.contains l <;> simp [h] <;> split_ifs <;> rfl

theorem closeStep_pcRunning_false (l : Listener) (s : SchedState)
    (hc : s.pcCreated = true) (h : (closeStep l s).listeners = []) :
    (closeStep l s).pcRunning = false := by
  rw [closeStep_listeners] at h
  simp only [closeStep]
  by_cases hm : s.listeners.contains l
  · have hm' : l ∈ s.listeners := by simpa using hm
    rw [if_pos hm] at h
    simp [hm', h, hc]
  · have hm' : l ∉ s.listeners := by simpa using hm
    rw [if_neg hm] at h
    simp [hm', h, hc]

theorem foldl_openConn_listeners :
    ∀ (ls : List Listener) (s : SchedState),
      (ls.foldl (fun s l => openConn true l s) s).listeners
        = s.listeners ++ ls := by
  intro ls
  induction ls with
  | nil => intro s; simp
  | cons l rest ih =>
      intro s
      rw [List.foldl_cons, ih, openConn_true_listeners]
      simp

theorem foldl_openConn_pcCreated :
    ∀ (ls : List Listener) (s : SchedState), s.pcCreated = true →
      (ls.foldl (fun s l => openConn true l s) s).pcCreated = true := by
  intro ls
  induction ls with
  | nil => intro s h; simpa using h
  | cons l rest ih =>
      intro s h
      rw [List.foldl_cons]
      exact ih _ (openConn_true_pcCreated l s (Or.inl h))

theorem closeFoldM_ok :
    ∀ (cs : List Listener) (s : SchedState),
      cs.foldlM (fun s l => closeConn l s) s
        = .ok (cs.foldl (fun s l => closeStep l s) s) := by
  intro cs
  induction cs with
  | nil => intro s; rfl
  | cons c rest ih =>
      intro s
      rw [List.foldlM_cons, closeConn_ok, ok_bind, ih, List.foldl_cons]

theorem closeFold_empties :
    ∀ (cs : List Listener) (s : SchedState),
      s.listeners.Nodup → cs.Perm s.listeners → s.pcCreated = true →
      cs ≠ [] →
      (cs.foldl (fun s l => closeStep l s) s).listeners = [] ∧
      (cs.foldl (fun s l => closeStep l s) s).pcRunning = false := by
  intro cs
  induction cs with
  | nil => intro s _ _ _ hne; exact absurd rfl hne
  | cons c rest ih =>
      intro s hnod hperm hc _
      have hmem : c ∈ s.listeners := hperm.mem_iff.mp (List.mem_cons_self _ _)
      have hcont : s.listeners.contains c = true := by simpa using hmem
      have hlist : (closeStep c s).listeners = s.listeners.erase c := by
        rw [closeStep_listeners, if_pos hcont]
      have hrest : rest.Perm (s.listeners.erase c) :=
        (List.cons_perm_iff_perm_erase.mp hperm).2
      rw [List.foldl_cons]
      by_cases hre : rest = []
      · subst hre
        have hnil : s.listeners.erase c = [] := List.nil_perm.mp hrest
        refine ⟨?_, ?_⟩
        · simp only [List.foldl_nil]
          rw [hlist, hnil]
        · simp only [List.foldl_nil]
          exact closeStep_pcRunning_false c s hc (by rw [hlist, hnil])
      · refine ih (closeStep c s) ?_ ?_ ?_ hre
        · rw [hlist]; exact hnod.erase c
        · rw [hlist]; exact hrest
        · rw [closeStep_pcCreated]; exact hc

theorem closeStep_noop (l : Listener) (s : SchedState)
    (h1 : l ∉ s.listeners) (h2 : s.listeners = [] → s.pcRunning = false) :
    closeStep l s = s := by
  have hc : s.listeners.contains l = false := by simpa using h1
  simp only [closeStep, hc]
  by_cases he : s.listeners.isEmpty
  · have hnil : s.listeners = [] := by simpa [List.isEmpty_iff] using he
    have hr : s.pcRunning = false := h2 hnil
    cases s with
    | mk ls c r snt => simp_all
  · simp [he]

/-! ## Full-builder lemmas -/

theorem dictIndex_ok {α : Type} {d : List (String × α)} {k : String} {v : α}
    (h : lookupAssoc d k = some v) : dictIndex d k = .ok v := by
  unfold dictIndex
  rw [h]

theorem containsKey_lookup {α : Type} {d : List (String × α)} {k : String}
    (h : containsKey d k = true) : ∃ v, lookupAssoc d k = some v := by
  unfold containsKey at h
  cases hl : lookupAssoc d k with
  | none => rw [hl] at h; simp at h
  | some v => exact ⟨v, rfl⟩

theorem dashboardGetStep_found (wr : WorkerRegistry)
    (acc : List (String × Dict)) (nv : String × Counter) {w : WorkerRecord}
    (hc : containsKey wr nv.1 = true) (hw : lookupAssoc wr nv.1 = some w) :
    dashboardGetStep wr acc nv
      = .ok (updateAssoc acc nv.1 (workerInfoDict w nv.2)) := by
  unfold dashboardGetStep
  rw [if_pos hc, dictIndex_ok hw]
  rfl

theorem dashboardGetStep_skip (wr : WorkerRegistry)
    (acc : List (String × Dict)) (nv : String × Counter)
    (hc : ¬containsKey wr nv.1 = true) :
    dashboardGetStep wr acc nv = .ok acc := by
  unfold dashboardGetStep
  rw [if_neg hc]
  rfl

theorem dashboardGetWorkers_total_aux (wr : WorkerRegistry) :
    ∀ (ct : CounterTable) (acc : List (String × Dict)),
      ∃ ws, ct.foldlM (dashboardGetStep wr) acc = .ok ws := by
  intro ct
  induction ct with
  | nil => intro acc; exact ⟨acc, rfl⟩
  | cons nv rest ih =>
      intro acc
      rw [List.foldlM_cons]
      by_cases h : containsKey wr nv.1
      · obtain ⟨w, hw⟩ := containsKey_lookup h
        rw [dashboardGetStep_found wr acc nv h hw, ok_bind]
        exact ih _
      · rw [dashboardGetStep_skip wr acc nv h, ok_bind]
        exact ih _

theorem dashboardGetWorkers_mem_aux (wr : WorkerRegistry)
    (P : String × Dict → Prop)
    (hstep : ∀ n values w, lookupAssoc wr n = some w →
      P (n, workerInfoDict w values)) :
    ∀ (ct : CounterTable) (acc ws : List (String × Dict)),
      ct.foldlM (dashboardGetStep wr) acc = .ok ws →
      (∀ p ∈ acc, P p) → ∀ p ∈ ws, P p := by
  intro ct
  induction ct with
  | nil =>
      intro acc ws h hacc
      simp only [List.foldlM_nil] at h
      injection h with h
      subst h
      exact hacc
  | cons nv rest ih =>
      intro acc ws h hacc
      rw [List.foldlM_cons] at h
      by_cases hc : containsKey wr nv.1
      · obtain ⟨w, hw⟩ := containsKey_lookup hc
        rw [dashboardGetStep_found wr acc nv hc hw, ok_bind] at h
        refine ih _ ws h ?_
        intro p hp
        rcases mem_updateAssoc hp with h' | h'
        · exact hacc p h'
        · subst h'
          exact hstep nv.1 nv.2 w hw
      · rw [dashboardGetStep_skip wr acc nv hc, ok_bind] at h
        exact ih _ ws h hacc

theorem worker_fields_nodup : worker_fields.Nodup := by decide

theorem as_dict_keys_of_fields (w : WorkerRecord) (h : w.hasFields = true) :
    (as_dict w).map Prod.fst = worker_fields := by
  unfold as_dict
  rw [if_pos h, List.map_map]
  have he : (Prod.fst ∘ fun k => (k, attrVal w k)) = id := funext (fun k => rfl)
  rw [he, List.map_id]

theorem worker_info_keys (w : WorkerRecord) :
    (worker_info w).map Prod.fst
      = worker_fields.filter (fun k => attrPresent w k) := by
  unfold worker_info
  rw [List.map_map]
  have he : (Prod.fst ∘ fun k => (k, attrVal w k)) = id := funext (fun k => rfl)
  rw [he, List.map_id]

theorem as_dict_keys_nodup (w : WorkerRecord) :
    ((as_dict w).map Prod.fst).Nodup := by
  by_cases h : w.hasFields
  · rw [as_dict_keys_of_fields w h]
    exact worker_fields_nodup
  · unfold as_dict
    rw [if_neg h, worker_info_keys]
    exact worker_fields_nodup.filter _

/-! ## Offline-purge lemmas -/

/-- The removal decision as a total predicate over a snapshot entry's dict:
meaningful exactly on well-formed entries (boolean `status`, list-or-absent
`heartbeats`), where it coincides with `purgeDecision`. -/
def decideEntry (t ts : Int) (info : Dict) : Bool :=
  match infoAlive info, infoHeartbeats info with
  | some a, some hbs => offlineRemovedSpec t ts a hbs
  | _, _ => false

theorem purgeDecision_eq (t ts : Int) (info : Dict) (a : Bool) (hbs : List Int)
    (ha : infoAlive info = some a) (hh : infoHeartbeats info = some hbs) :
    purgeDecision t ts info = .ok (offlineRemovedSpec t ts a hbs) := by
  unfold infoAlive at ha
  unfold infoHeartbeats at hh
  unfold purgeDecision
  cases hst : lookupAssoc info "status" with
  | none => rw [hst] at ha; cases ha
  | some v =>
      rw [hst] at ha
      cases v with
      | pyBool b =>
          injection ha with ha
          subst ha
          cases b with
          | true => simp [pyTruthy, offlineRemovedSpec]
          | false =>
              simp only [Option.getD_some, pyTruthy, Bool.false_eq_true,
                if_false]
              cases hhb : lookupAssoc info "heartbeats" with
              | none =>
                  rw [hhb] at hh
                  injection hh with hh
                  subst hh
                  simp [pyTruthy, offlineRemovedSpec]
              | some hv =>
                  rw [hhb] at hh
                  cases hv with
                  | pyIntList xs =>
                      injection hh with hh
                      subst hh
                      cases xs with
                      | nil => simp [pyTruthy, offlineRemovedSpec]
                      | cons y ys =>
                          simp [pyTruthy, pyIntElems, pyMax, ok_bind,
                            offlineRemovedSpec, listMax, Bind.bind,
                            Except.bind]
                  | pyNone =>
                      injection hh with hh
                      subst hh
                      simp [pyTruthy, offlineRemovedSpec]
                  | pyBool c => cases hh
                  | pyInt n => cases hh
                  | pyStr s => cases hh
      | pyNone => cases ha
      | pyInt n => cases ha
      | pyStr s => cases ha
      | pyIntList xs => cases ha

theorem purgeDecision_eq_decideEntry (t ts : Int) (info : Dict)
    (ha : (infoAlive info).isSome) (hh : (infoHeartbeats info).isSome) :
    purgeDecision t ts info = .ok (decideEntry t ts info) := by
  obtain ⟨a, ha'⟩ := Option.isSome_iff_exists.mp ha
  obtain ⟨hbs, hh'⟩ := Option.isSome_iff_exists.mp hh
  rw [purgeDecision_eq t ts info a hbs ha' hh']
  unfold decideEntry
  rw [ha', hh']

theorem offlineCollect_eq (t ts : Int) :
    ∀ (ws : List (String × Dict)) (acc : List String),
      (∀ p ∈ ws, (infoAlive p.2).isSome ∧ (infoHeartbeats p.2).isSome) →
      ws.foldlM (offlineCollectStep t ts) acc
        = .ok (acc ++ (ws.filter (fun p => decideEntry t ts p.2)).map
            Prod.fst) := by
  intro ws
  induction ws with
  | nil =>
      intro acc _
      simp only [List.foldlM_nil, List.filter_nil, List.map_nil,
        List.append_nil]
      rfl
  | cons p rest ih =>
      intro acc hwf
      obtain ⟨ha, hh⟩ := hwf p (List.mem_cons_self _ _)
      have hd : purgeDecision t ts p.2 = .ok (decideEntry t ts p.2) :=
        purgeDecision_eq_decideEntry t ts p.2 ha hh
      have hstep : offlineCollectStep t ts acc p
          = .ok (if decideEntry t ts p.2 then acc ++ [p.1] else acc) := by
        unfold offlineCollectStep
        rw [hd, ok_bind]
        rfl
      rw [List.foldlM_cons, hstep, ok_bind,
        ih _ (fun q hq => hwf q (List.mem_cons_of_mem _ hq))]
      cases hdec : decideEntry t ts p.2 <;>
        simp [List.filter_cons, hdec, List.append_assoc]

theorem popAll_ok :
    ∀ (names : List String) (ws : List (String × Dict)),
      names.Nodup → (∀ n ∈ names, containsKey ws n = true) →
      (ws.map Prod.fst).Nodup →
      names.foldlM (fun acc n => dictPop acc n) ws
        = .ok (ws.filter (fun p => !(names.contains p.1))) := by
  intro names
  induction names with
  | nil =>
      intro ws _ _ _
      simp only [List.foldlM_nil, List.contains_nil, Bool.not_false,
        List.filter_true]
      rfl
  | cons n rest ih =>
      intro ws hnod hpres hknod
      rw [List.foldlM_cons]
      have hc : containsKey ws n = true := hpres n (List.mem_cons_self _ _)
      have hpop : dictPop ws n = .ok (eraseKey ws n) := by
        unfold dictPop; rw [if_pos hc]
      rw [hpop, ok_bind]
      have hef : eraseKey ws n = ws.filter (fun p => !(p.1 == n)) :=
        eraseKey_eq_filter ws n hknod
      have hnodup_rest : rest.Nodup := (List.nodup_cons.mp hnod).2
      have hn_notin : n ∉ rest := (List.nodup_cons.mp hnod).1
      have hpres' : ∀ m ∈ rest, containsKey (eraseKey ws n) m = true := by
        intro m hm
        have hmn : m ≠ n := fun e => hn_notin (e ▸ hm)
        rw [hef, containsKey_filter_key ws (fun k => !(k == n)) m]
        simp [hmn, hpres m (List.mem_cons_of_mem _ hm)]
      have hknod' : ((eraseKey ws n).map Prod.fst).Nodup := by
        rw [hef]
        exact hknod.sublist (keys_filter_sublist ws _)
      rw [ih (eraseKey ws n) hnodup_rest hpres' hknod', hef,
        List.filter_filter]
      congr 1
      apply List.filter_congr
      intro p _
      by_cases hpn : p.1 = n <;>
        simp [hpn, List.contains_cons, Bool.not_or, Bool.and_comm]

theorem containsKey_filter_entry {α : Type} (d : List (String × α))
    (q : String × α → Bool) (hnod : (d.map Prod.fst).Nodup)
    (p : String × α) (hp : p ∈ d) :
    containsKey (d.filter q) p.1 = q p := by
  cases hq : q p with
  | true =>
      exact containsKey_of_mem (List.mem_filter.mpr ⟨hp, hq⟩)
  | false =>
      cases hck : containsKey (d.filter q) p.1 with
      | false => rfl
      | true =>
          obtain ⟨v, hv⟩ := containsKey_exists hck
          have hvd : (p.1, v) ∈ d := List.mem_of_mem_filter hv
          have : (p.1, v) = p := key_inj hnod hvd hp rfl
          have hqv : q (p.1, v) = true := (List.mem_filter.mp hv).2
          rw [this] at hqv
          rw [hqv] at hq
          cases hq

theorem purge_offline_some_eq (t ts : Int) (ws : List (String × Dict))
    (hknod : (ws.map Prod.fst).Nodup)
    (hwf : ∀ p ∈ ws, (infoAlive p.2).isSome ∧ (infoHeartbeats p.2).isSome) :
    purge_offline_workers (some t) ts ws
      = .ok (ws.filter (fun p => !(decideEntry t ts p.2))) := by
  have hred : purge_offline_workers (some t) ts ws
      = (ws.foldlM (offlineCollectStep t ts) [] >>= fun offline =>
          offline.foldlM (fun acc n => dictPop acc n) ws) := rfl
  rw [hred, offlineCollect_eq t ts ws [] hwf, ok_bind]
  have hnnod : ((ws.filter (fun p => decideEntry t ts p.2)).map
      Prod.fst).Nodup := hknod.sublist (keys_filter_sublist ws _)
  have hpres : ∀ n ∈ (ws.filter (fun p => decideEntry t ts p.2)).map Prod.fst,
      containsKey ws n = true := by
    intro n hn
    obtain ⟨q, hq, rfl⟩ := List.mem_map.mp hn
    exact containsKey_of_mem (List.mem_of_mem_filter hq)
  rw [List.nil_append, popAll_ok _ ws hnnod hpres hknod]
  congr 1
  apply List.filter_congr
  intro p hp
  have hcd : ((ws.filter (fun p => decideEntry t ts p.2)).map
      Prod.fst).contains p.1 = decideEntry t ts p.2 := by
    cases hdec : decideEntry t ts p.2 with
    | true =>
        have : p.1 ∈ (ws.filter (fun p => decideEntry t ts p.2)).map
            Prod.fst :=
          List.mem_map_of_mem Prod.fst (List.mem_filter.mpr ⟨hp, hdec⟩)
        exact List.elem_iff.mpr this
    | false =>
        cases hcon : ((ws.filter (fun p => decideEntry t ts p.2)).map
            Prod.fst).contains p.1 with
        | false => rfl
        | true =>
            obtain ⟨q, hq, hq1⟩ := List.mem_map.mp (List.elem_iff.mp hcon)
            have hqd : q ∈ ws := List.mem_of_mem_filter hq
            have : q = p := key_inj hknod hqd hp hq1
            have hqdec : decideEntry t ts q.2 = true :=
              (List.mem_filter.mp hq).2
            rw [this] at hqdec
            rw [hqdec] at hdec
            cases hdec
  rw [hcd]

/-! ## Claim theorems and witnesses -/

/-- The derived active-task count for one worker: the counter differences
computed by `dashboard_update` before the sign check. -/
def activeDiff (ct : CounterTable) (name : String) : Int :=
  let counter := counterDefault ct name
  (counterGet counter "task-started" : Int)
    - counterGet counter "task-succeeded"
    - counterGet counter "task-failed"
    - counterGet counter "task-retried"

theorem narrowEntryFor_active (ct : CounterTable) (n : String)
    (w : WorkerRecord) :
    (narrowEntryFor ct n w).active =
      if activeDiff ct n < 0 then .pyStr "N/A" else .pyInt (activeDiff ct n) :=
  rfl

theorem narrowEntryFor_nocounter (ct : CounterTable) (n : String)
    (w : WorkerRecord) (h : lookupAssoc ct n = none) :
    (narrowEntryFor ct n w).active = .pyInt 0 ∧
    (narrowEntryFor ct n w).processed = 0 ∧
    (narrowEntryFor ct n w).failed = 0 ∧
    (narrowEntryFor ct n w).succeeded = 0 ∧
    (narrowEntryFor ct n w).retried = 0 := by
  unfold narrowEntryFor counterDefault
  rw [h]
  simp [counterGet, lookupAssoc]

theorem mem_dashboard_update {ct : CounterTable} {wr : WorkerRegistry}
    {n : String} {e : NarrowEntry} (h : (n, e) ∈ dashboard_update ct wr) :
    ∃ w, (n, w) ∈ wr ∧ e = narrowEntryFor ct n w := by
  have := mem_foldl_updateAssoc (fun q => narrowEntryFor ct q.1 q.2)
    (fun p => ∃ w, (p.1, w) ∈ wr ∧ p.2 = narrowEntryFor ct p.1 w)
    (sortByName wr) [] (by intro p hp; cases hp) ?_ (n, e) h
  · exact this
  · intro q hq
    exact ⟨q.2, (sortByName_perm wr).subset hq, rfl⟩

theorem dashboard_update_containsKey {ct : CounterTable}
    {wr : WorkerRegistry} {n : String} {w : WorkerRecord} (h : (n, w) ∈ wr) :
    containsKey (dashboard_update ct wr) n = true := by
  refine containsKey_foldl_updateAssoc (fun q => narrowEntryFor ct q.1 q.2)
    (sortByName wr) [] n (Or.inr ?_)
  exact List.mem_map_of_mem Prod.fst ((sortByName_perm wr).symm.subset h)

/-- Shared concrete fixtures for witnesses (the spec's §8 end-to-end data). -/
def ctW : CounterTable :=
  [("w1", [("task-started", 5), ("task-succeeded", 3), ("task-failed", 1),
    ("task-retried", 0)])]

def recW : WorkerRecord := { alive := true, hasFields := false }

def wrW : WorkerRegistry := [("w1", recW)]

def eW : NarrowEntry :=
  { name := "w1", status := true, active := .pyInt 1, processed := 0,
    failed := 1, succeeded := 3, retried := 0, loadavg := .pyNone }

/-- C1: in the narrow broadcast snapshot, every entry's `active` equals
`started − succeeded − failed − retried` over that worker's counters
(each count defaulting to 0) when that difference is non-negative, is the
sentinel `"N/A"` when the difference is negative, and is never a negative
integer. -/
theorem claim_C1_narrow_active (ct : CounterTable) (wr : WorkerRegistry)
    (n : String) (e : NarrowEntry) (h : (n, e) ∈ dashboard_update ct wr) :
    (0 ≤ activeDiff ct n → e.active = .pyInt (activeDiff ct n)) ∧
    (activeDiff ct n < 0 → e.active = .pyStr "N/A") ∧
    (∀ m : Int, e.active = .pyInt m → 0 ≤ m) := by
  obtain ⟨w, hw, rfl⟩ := mem_dashboard_update h
  refine ⟨?_, ?_, ?_⟩
  · intro h0
    rw [narrowEntryFor_active, if_neg (not_lt.mpr h0)]
  · intro h0
    rw [narrowEntryFor_active, if_pos h0]
  · intro m hm
    rw [narrowEntryFor_active] at hm
    by_cases hd : activeDiff ct n < 0
    · rw [if_pos hd] at hm
      cases hm
    · rw [if_neg hd] at hm
      injection hm with hm
      subst hm
      exact not_lt.mp hd

theorem claim_C1_witness :
    ("w1", eW) ∈ dashboard_update ctW wrW ∧
    (0 ≤ activeDiff ctW "w1" → eW.active = .pyInt (activeDiff ctW "w1")) ∧
    (activeDiff ctW "w1" < 0 → eW.active = .pyStr "N/A") ∧
    (∀ m : Int, eW.active = .pyInt m → 0 ≤ m) :=
  ⟨by decide, claim_C1_narrow_active ctW wrW "w1" eW (by decide)⟩

/-- C2: on a tick, when the computed narrow snapshot is empty nothing is
pushed; when it is non-empty (and no send fails) every listener in the
registry receives exactly one message carrying the identical snapshot value,
computed once. -/
theorem claim_C2_tick_fanout (fails : Listener → Bool) (ct : CounterTable)
    (wr : WorkerRegistry) (listeners : List Listener)
    (h : ∀ l ∈ listeners, fails l = false) :
    (dashboard_update ct wr = [] →
      on_update_time fails ct wr listeners = []) ∧
    (dashboard_update ct wr ≠ [] →
      on_update_time fails ct wr listeners
        = listeners.map (fun l => (l, dashboard_update ct wr))) := by
  constructor
  · intro he
    unfold on_update_time
    rw [if_pos (by simp [he])]
  · intro hne
    unfold on_update_time
    rw [if_neg (by simpa [List.isEmpty_iff] using hne)]
    exact pushAll_no_fail fails _ listeners h

theorem claim_C2_witness :
    on_update_time (fun _ => false) ctW wrW [0, 1]
      = [(0, dashboard_update ctW wrW), (1, dashboard_update ctW wrW)] := by
  have := (claim_C2_tick_fanout (fun _ => false) ctW wrW [0, 1]
    (by intro l _; rfl)).2 (by decide)
  simpa using this

theorem foldl_openConn_init_pcCreated (ls : List Listener) (h : ls ≠ []) :
    (ls.foldl (fun s l => openConn true l s) initState).pcCreated = true := by
  cases ls with
  | nil => exact absurd rfl h
  | cons a rest =>
      rw [List.foldl_cons]
      exact foldl_openConn_pcCreated rest _
        (openConn_true_pcCreated a initState (Or.inr rfl))

/-- C3: opening N distinct auto-refresh connections and then closing those
same N connections (in any order) leaves the listener registry empty and the
broadcast timer stopped; closing a connection that is not registered is a
no-op that does not raise (`.ok` with the state unchanged). -/
theorem claim_C3_lifecycle (ls cs : List Listener) (s : SchedState)
    (l : Listener) (h1 : ls.Nodup) (h2 : cs.Perm ls)
    (h3 : l ∉ s.listeners) (h4 : s.listeners = [] → s.pcRunning = false) :
    (∃ final,
      cs.foldlM (fun s l => closeConn l s)
          (ls.foldl (fun s l => openConn true l s) initState) = .ok final ∧
      final.listeners = [] ∧ final.pcRunning = false) ∧
    closeConn l s = .ok s := by
  constructor
  · rw [closeFoldM_ok]
    refine ⟨_, rfl, ?_⟩
    by_cases hls : ls = []
    · subst hls
      have hcs : cs = [] := List.perm_nil.mp h2
      subst hcs
      exact ⟨rfl, rfl⟩
    · have hl1 : (ls.foldl (fun s l => openConn true l s) initState).listeners
          = ls := by
        rw [foldl_openConn_listeners]
        rfl
      have hpc : (ls.foldl (fun s l => openConn true l s) initState).pcCreated
          = true := foldl_openConn_init_pcCreated ls hls
      have hcs_ne : cs ≠ [] := by
        intro hc
        subst hc
        exact hls (List.perm_nil.mp h2.symm)
      refine closeFold_empties cs _ ?_ ?_ hpc hcs_ne
      · rw [hl1]
        exact h1
      · rw [hl1]
        exact h2
  · rw [closeConn_ok, closeStep_noop l s h3 h4]

def sW3 : SchedState := ⟨[5], true, true, []⟩

theorem claim_C3_witness :
    (∃ final,
      [1, 0].foldlM (fun s l => closeConn l s)
          ([0, 1].foldl (fun s l => openConn true l s) initState)
        = .ok final ∧ final.listeners = [] ∧ final.pcRunning = false) ∧
    closeConn 7 sW3 = .ok sW3 :=
  claim_C3_lifecycle [0, 1] [1, 0] sW3 7 (by decide) (by decide) (by decide)
    (by decide)

/-- The failing listener used by the C4 analysis: the push to listener 1
raises. -/
def failsW : Listener → Bool := fun l => l == 1

theorem claim_C4_counterexample :
    on_update_time failsW ctW wrW [0, 1, 2]
        = [(0, dashboard_update ctW wrW)] ∧
    dashboard_update ctW wrW ≠ [] ∧
    ∀ p, (2, p) ∈ on_update_time failsW ctW wrW [0, 1, 2] → False := by
  have h1 : on_update_time failsW ctW wrW [0, 1, 2]
      = [(0, dashboard_update ctW wrW)] := rfl
  refine ⟨h1, by decide, ?_⟩
  intro p hp
  rw [h1] at hp
  simp only [List.mem_singleton, Prod.mk.injEq] at hp
  exact absurd hp.1 (by decide)

/-- C4 (amended): when the push to one listener raises mid-broadcast, the
listeners before it in registry order have already received the tick's
payload, and the exception aborts the sends to the failing listener and to
every listener after it. -/
theorem claim_C4_amended (fails : Listener → Bool) (ct : CounterTable)
    (wr : WorkerRegistry) (pre post : List Listener) (f : Listener)
    (hpre : ∀ l ∈ pre, fails l = false) (hf : fails f = true)
    (hne : dashboard_update ct wr ≠ []) :
    on_update_time fails ct wr (pre ++ f :: post)
      = pre.map (fun l => (l, dashboard_update ct wr)) := by
  unfold on_update_time
  rw [if_neg (by simpa [List.isEmpty_iff] using hne)]
  exact pushAll_upto_fail fails _ pre post f hpre hf

theorem claim_C4_witness :
    on_update_time failsW ctW wrW ([0] ++ 1 :: [2])
      = [0].map (fun l => (l, dashboard_update ctW wrW)) :=
  claim_C4_amended failsW ctW wrW [0] [2] 1 (by decide) (by decide)
    (by decide)

theorem claim_C5_counterexample :
    (openConn true 0 (openConn true 0 initState)).listeners = [0, 0] ∧
    ¬(openConn true 0 (openConn true 0 initState)).listeners.Nodup := by
  refine ⟨rfl, by decide⟩

/-- C5 (amended): the listener registry is a plain list and `open` appends
unconditionally, so adding an already-present handle appends a second copy
(its occurrence count grows by one and the registry holds a duplicate)
rather than being a no-op. -/
theorem claim_C5_amended (s : SchedState) (l : Listener)
    (h : l ∈ s.listeners) :
    (openConn true l s).listeners = s.listeners ++ [l] ∧
    (openConn true l s).listeners.count l = s.listeners.count l + 1 ∧
    ¬(openConn true l s).listeners.Nodup := by
  refine ⟨openConn_true_listeners l s, ?_, ?_⟩
  · rw [openConn_true_listeners]
    simp
  · rw [openConn_true_listeners]
    intro hnod
    exact (List.nodup_append.mp hnod).2.2 h (List.mem_singleton.mpr rfl)

def sW5 : SchedState := ⟨[3], true, true, []⟩

theorem claim_C5_witness :
    (openConn true 3 sW5).listeners = sW5.listeners ++ [3] ∧
    (openConn true 3 sW5).listeners.count 3 = sW5.listeners.count 3 + 1 ∧
    ¬(openConn true 3 sW5).listeners.Nodup :=
  claim_C5_amended sW5 3 (by decide)

/-- C10: a dead worker whose most recent heartbeat is exactly 0 is removed
by the purge decision for every threshold and timestamp, exactly like a dead
worker with no heartbeat history, because `not last_heartbeat` tests the
integer's truthiness rather than its presence. -/
theorem claim_C10_zero_heartbeat (t₁ ts₁ t₂ ts₂ : Int) (info₁ info₂ : Dict)
    (hbs : List Int) (ha₁ : infoAlive info₁ = some false)
    (hh₁ : infoHeartbeats info₁ = some hbs) (hmax : listMax hbs = 0)
    (ha₂ : infoAlive info₂ = some false)
    (hh₂ : infoHeartbeats info₂ = some []) :
    purgeDecision t₁ ts₁ info₁ = .ok true ∧
    purgeDecision t₂ ts₂ info₂ = .ok true := by
  constructor
  · rw [purgeDecision_eq t₁ ts₁ info₁ false hbs ha₁ hh₁]
    unfold offlineRemovedSpec
    simp [hmax]
  · rw [purgeDecision_eq t₂ ts₂ info₂ false [] ha₂ hh₂]
    simp [offlineRemovedSpec]

def infoC7 : Dict := [("status", .pyBool false), ("heartbeats", .pyIntList [0])]

def infoC10b : Dict := [("status", .pyBool false)]

theorem claim_C10_witness :
    purgeDecision 1000 99 infoC7 = .ok true ∧
    purgeDecision 7 42 infoC10b = .ok true :=
  claim_C10_zero_heartbeat 1000 99 7 42 infoC7 infoC10b [0] rfl rfl rfl rfl
    rfl

/-- C8: opening a connection while auto-refresh is disabled writes exactly
one empty-dict message to it, does not register it, and it can never receive a
tick payload afterwards (tick deliveries go only to registry members). -/
theorem claim_C8_no_autorefresh (s : SchedState) (l : Listener)
    (h : l ∉ s.listeners) :
    (openConn false l s).sent = s.sent ++ [(l, ([] : Dict))] ∧
    (openConn false l s).listeners = s.listeners ∧
    l ∉ (openConn false l s).listeners ∧
    (∀ (fails : Listener → Bool) (ct : CounterTable) (wr : WorkerRegistry)
        (p : List (String × NarrowEntry)),
      (l, p) ∈ on_update_time fails ct wr (openConn false l s).listeners →
        False) := by
  refine ⟨rfl, rfl, h, ?_⟩
  intro fails ct wr p hp
  unfold on_update_time at hp
  by_cases hu : (dashboard_update ct wr).isEmpty
  · rw [if_pos hu] at hp
    cases hp
  · rw [if_neg hu] at hp
    exact h (mem_pushAll hp).1

def sW8 : SchedState := ⟨[9], true, true, []⟩

theorem claim_C8_witness :
    (openConn false 4 sW8).sent = sW8.sent ++ [(4, ([] : Dict))] ∧
    (openConn false 4 sW8).listeners = sW8.listeners ∧
    4 ∉ (openConn false 4 sW8).listeners ∧
    (∀ (fails : Listener → Bool) (ct : CounterTable) (wr : WorkerRegistry)
        (p : List (String × NarrowEntry)),
      (4, p) ∈ on_update_time fails ct wr (openConn false 4 sW8).listeners →
        False) :=
  claim_C8_no_autorefresh sW8 4 (by decide)

/-- C6: the snapshot builders are total: the full builder returns `.ok` on
every input; the narrow builder yields an entry for every registered worker,
with all-zero counts and `active = 0` when the worker has no counter-table
entry; and the loose-record attribute path only ever emits attributes that
are present (missing data is omitted, not an error). -/
theorem claim_C6_builders_total :
    (∀ (ct : CounterTable) (wr : WorkerRegistry),
      ∃ ws, dashboardGetWorkers ct wr = .ok ws) ∧
    (∀ (ct : CounterTable) (wr : WorkerRegistry) (n : String)
        (w : WorkerRecord), (n, w) ∈ wr →
      ∃ e, (n, e) ∈ dashboard_update ct wr) ∧
    (∀ (ct : CounterTable) (wr : WorkerRegistry) (n : String)
        (e : NarrowEntry), lookupAssoc ct n = none →
      (n, e) ∈ dashboard_update ct wr →
      e.active = .pyInt 0 ∧ e.processed = 0 ∧ e.failed = 0 ∧
        e.succeeded = 0 ∧ e.retried = 0) ∧
    (∀ (w : WorkerRecord) (k : String), w.hasFields = false →
      containsKey (as_dict w) k = true → attrPresent w k = true) := by
  refine ⟨?_, ?_, ?_, ?_⟩
  · intro ct wr
    exact dashboardGetWorkers_total_aux wr ct []
  · intro ct wr n w h
    obtain ⟨e, he⟩ := containsKey_exists (dashboard_update_containsKey h)
    exact ⟨e, he⟩
  · intro ct wr n e hct hmem
    obtain ⟨w, _, rfl⟩ := mem_dashboard_update hmem
    exact narrowEntryFor_nocounter ct n w hct
  · intro w k hf hck
    obtain ⟨v, hv⟩ := containsKey_exists hck
    unfold as_dict at hv
    rw [if_neg (by simp [hf])] at hv
    unfold worker_info at hv
    obtain ⟨k', hk', hkv⟩ := List.mem_map.mp hv
    have hk : k' = k := congrArg Prod.fst hkv
    subst hk
    exact (List.mem_filter.mp hk').2

def recW2 : WorkerRecord := { alive := false, hasFields := false }

def wrW2 : WorkerRegistry := [("w2", recW2)]

def eW2 : NarrowEntry :=
  { name := "w2", status := false, active := .pyInt 0, processed := 0,
    failed := 0, succeeded := 0, retried := 0, loadavg := .pyNone }

def recW6 : WorkerRecord :=
  { alive := true, hasFields := false, hostname := some "host-a" }

theorem claim_C6_witness :
    (∃ ws, dashboardGetWorkers ctW wrW = .ok ws) ∧
    (∃ e, ("w2", e) ∈ dashboard_update [] wrW2) ∧
    (eW2.active = .pyInt 0 ∧ eW2.processed = 0 ∧ eW2.failed = 0 ∧
      eW2.succeeded = 0 ∧ eW2.retried = 0) ∧
    attrPresent recW6 "hostname" = true :=
  ⟨claim_C6_builders_total.1 ctW wrW,
   claim_C6_builders_total.2.1 [] wrW2 "w2" recW2 (by decide),
   claim_C6_builders_total.2.2.1 [] wrW2 "w2" eW2 rfl (by decide),
   claim_C6_builders_total.2.2.2 recW6 "hostname" rfl (by decide)⟩

/-- C9: in the full snapshot, every attribute copied from the worker record
overwrites a same-named key coming from the raw counter entries, and the
final `status` key always carries the record's liveness flag. -/
theorem claim_C9_record_overrides (ct : CounterTable) (wr : WorkerRegistry)
    (ws : List (String × Dict)) (n : String) (info : Dict)
    (w : WorkerRecord) (hok : dashboardGetWorkers ct wr = .ok ws)
    (hmem : (n, info) ∈ ws) (hw : lookupAssoc wr n = some w) :
    lookupAssoc info "status" = some (.pyBool w.alive) ∧
    (∀ k, k ≠ "status" → containsKey (as_dict w) k = true →
      lookupAssoc info k = lookupAssoc (as_dict w) k) := by
  have hstep : ∀ (n' : String) (values : Counter) (w' : WorkerRecord),
      lookupAssoc wr n' = some w' →
      (∀ w'', lookupAssoc wr n' = some w'' →
        lookupAssoc (workerInfoDict w' values) "status"
          = some (.pyBool w''.alive) ∧
        (∀ k, k ≠ "status" → containsKey (as_dict w'') k = true →
          lookupAssoc (workerInfoDict w' values) k
            = lookupAssoc (as_dict w'') k)) := by
    intro n' values w' hw' w'' hw''
    have hww : w'' = w' := by
      rw [hw'] at hw''
      injection hw'' with h
      exact h.symm
    subst hww
    constructor
    · unfold workerInfoDict
      exact lookupAssoc_updateAssoc_self _ _ _
    · intro k hk hck
      unfold workerInfoDict
      rw [lookupAssoc_updateAssoc_ne _ _ _ _ hk]
      exact lookupAssoc_dictUpdate_of_contains _ _ k (as_dict_keys_nodup _)
        hck
  have := dashboardGetWorkers_mem_aux wr
    (fun p => ∀ w'', lookupAssoc wr p.1 = some w'' →
      lookupAssoc p.2 "status" = some (.pyBool w''.alive) ∧
      (∀ k, k ≠ "status" → containsKey (as_dict w'') k = true →
        lookupAssoc p.2 k = lookupAssoc (as_dict w'') k))
    hstep ct [] ws hok
    (by intro p hp; cases hp) (n, info) hmem w hw
  exact this

def ctW9 : CounterTable := [("w1", [("task-started", 5), ("active", 7)])]

def recW9 : WorkerRecord :=
  { alive := true, hasFields := false, active := some 2 }

def wrW9 : WorkerRegistry := [("w1", recW9)]

def infoW9 : Dict :=
  [("task-started", .pyInt 5), ("active", .pyInt 2), ("status", .pyBool true)]

theorem claim_C9_witness :
    lookupAssoc infoW9 "status" = some (.pyBool recW9.alive) ∧
    lookupAssoc infoW9 "active" = lookupAssoc (as_dict recW9) "active" :=
  ⟨(claim_C9_record_overrides ctW9 wrW9 [("w1", infoW9)] "w1" infoW9 recW9
      rfl (by decide) rfl).1,
   (claim_C9_record_overrides ctW9 wrW9 [("w1", infoW9)] "w1" infoW9 recW9
      rfl (by decide) rfl).2 "active" (by decide) (by decide)⟩

theorem claim_C7_counterexample :
    purge_offline_workers (some 5) 3 [("w0", infoC7)] = .ok [] ∧
    infoAlive infoC7 = some false ∧
    infoHeartbeats infoC7 = some [0] ∧
    ¬((0 : Int) < 3 - 5) := by
  refine ⟨rfl, rfl, rfl, by decide⟩

/-- C7 (amended): with `purge_offline_workers = T`, a snapshot entry is
removed iff its worker is not alive and its heartbeat history is empty, or
its most recent heartbeat is exactly 0 (truthiness quirk, see C10), or that
heartbeat is older than `now − T`; with the option unset nothing is ever
purged (and a live worker is never removed, as the iff's right side is
false for alive workers). -/
theorem claim_C7_amended (t ts : Int) (ws : List (String × Dict))
    (hknod : (ws.map Prod.fst).Nodup)
    (hwf : ∀ p ∈ ws, (infoAlive p.2).isSome ∧ (infoHeartbeats p.2).isSome) :
    ∃ ws', purge_offline_workers (some t) ts ws = .ok ws' ∧
      (∀ p ∈ ws, ∀ (a : Bool) (hbs : List Int),
        infoAlive p.2 = some a → infoHeartbeats p.2 = some hbs →
        containsKey ws' p.1
          = !(!a && (hbs.isEmpty || decide (listMax hbs = 0)
              || decide (ts - listMax hbs > t)))) ∧
      purge_offline_workers none ts ws = .ok ws := by
  refine ⟨ws.filter (fun p => !(decideEntry t ts p.2)),
    purge_offline_some_eq t ts ws hknod hwf, ?_, rfl⟩
  intro p hp a hbs ha hh
  have h1 : containsKey (ws.filter (fun p => !(decideEntry t ts p.2))) p.1
      = !(decideEntry t ts p.2) :=
    containsKey_filter_entry ws _ hknod p hp
  rw [h1]
  unfold decideEntry
  rw [ha, hh]
  rfl

def wsC7 : List (String × Dict) :=
  [("w0", infoC7),
   ("w1", [("status", .pyBool true), ("heartbeats", .pyIntList [1])])]

theorem claim_C7_witness :
    ∃ ws', purge_offline_workers (some 5) (100 : Int) wsC7 = .ok ws' ∧
      (∀ p ∈ wsC7, ∀ (a : Bool) (hbs : List Int),
        infoAlive p.2 = some a → infoHeartbeats p.2 = some hbs →
        containsKey ws' p.1
          = !(!a && (hbs.isEmpty || decide (listMax hbs = 0)
              || decide ((100 : Int) - listMax hbs > 5)))) ∧
      purge_offline_workers none 100 wsC7 = .ok wsC7 :=
  claim_C7_amended 5 100 wsC7 (by decide) (by decide)
